import Mathlib

/-!
Verification development for the logical-schema engine of a columnar table
storage format (databend TableSchema): the recursive type model, the
column-id assignment algorithm, the schema mutation operations (add/drop)
and the two projection mechanisms, together with the column-builder
dispatch convenience.

The schema engine itself is modelled from the specification (its
implementation file is not part of the sampled sources; only its test
surface is), and every definition is checked against the concrete
expectations of that test surface (`tests/it/schema.rs`).  In particular
the tests pin down that, for id assignment, only `Tuple` and `Array`
nodes are composite (recursed into), while `Nullable` and `Map` wrappers
occupy a single id of their own.
-/

namespace DatabendSchema

/-- Modelled from the spec: the scalar number kinds appearing in the
sampled tests. -/
inductive NumberDataType where
  | UInt64
  | Int64
  | Int32
deriving DecidableEq

/-- Modelled from the spec: recursive description of a logical data type
(`TableDataType` in the source): primitive scalar kinds, nullable
wrapper, array, map, and named-tuple composite. -/
inductive TableDataType where
  | Boolean : TableDataType
  | String : TableDataType
  | Number : NumberDataType → TableDataType
  | Nullable : TableDataType → TableDataType
  | Array : TableDataType → TableDataType
  | Map : TableDataType → TableDataType
  | Tuple : List String → List TableDataType → TableDataType

/-- Modelled from the spec: a named field with a representative column id
(`TableField` in the source). `TableField::new` leaves the id 0; ids are
assigned when the field is admitted into a schema. -/
structure TableField where
  name : String
  data_type : TableDataType
  column_id : Nat

mutual

/-- Modelled from the spec: number of leaf nodes (physical columns) of a
type.  Per the test surface, only `Tuple` and `Array` are recursed into;
all other kinds are leaves. -/
def leaf_count : TableDataType → Nat
  | .Tuple _ ts => leaf_count_list ts
  | .Array e => leaf_count e
  | _ => 1

/-- Leaf count of a list of tuple members. -/
def leaf_count_list : List TableDataType → Nat
  | [] => 0
  | t :: ts => leaf_count t + leaf_count_list ts

end

mutual

/-- Modelled from the spec: pre-order column-id assignment over a type,
starting from counter `n`.  Each leaf receives the next unused id
(incrementing the counter); each composite (`Tuple`/`Array`) pushes the
current counter — which is exactly the id its leftmost leaf descendant
will receive — without incrementing.  Returns the pre-order node-id list
together with the advanced counter. -/
def build_column_ids : TableDataType → Nat → List Nat × Nat
  | .Tuple _ ts, n =>
    let r := build_column_ids_list ts n
    (n :: r.1, r.2)
  | .Array e, n =>
    let r := build_column_ids e n
    (n :: r.1, r.2)
  | _, n => ([n], n + 1)

/-- Id assignment over the members of a tuple, left to right. -/
def build_column_ids_list : List TableDataType → Nat → List Nat × Nat
  | [], n => ([], n)
  | t :: ts, n =>
    let r := build_column_ids t n
    let r2 := build_column_ids_list ts r.2
    (r.1 ++ r2.1, r2.2)

end

mutual

/-- Modelled from the spec: the ids of the leaf nodes only, in pre-order
(one entry per leaf, no composite entries). -/
def build_leaf_ids : TableDataType → Nat → List Nat × Nat
  | .Tuple _ ts, n => build_leaf_ids_list ts n
  | .Array e, n => build_leaf_ids e n
  | _, n => ([n], n + 1)

/-- Leaf-id assignment over the members of a tuple, left to right. -/
def build_leaf_ids_list : List TableDataType → Nat → List Nat × Nat
  | [], n => ([], n)
  | t :: ts, n =>
    let r := build_leaf_ids t n
    let r2 := build_leaf_ids_list ts r.2
    (r.1 ++ r2.1, r2.2)

end

/-- `node_ids` of a field: the pre-order node-id list regenerated from the
field's representative id. -/
def TableField.column_ids (f : TableField) : List Nat :=
  (build_column_ids f.data_type f.column_id).1

/-- `leaf_ids` of a field: one id per leaf node, in pre-order. -/
def TableField.leaf_column_ids (f : TableField) : List Nat :=
  (build_leaf_ids f.data_type f.column_id).1

/-- Modelled from the spec: the error taxonomy of the schema engine. -/
inductive SchemaErr where
  | DuplicateName
  | UnknownColumn
  | InvalidPath
deriving DecidableEq

/-- Modelled from the spec: an ordered collection of active fields plus the
monotonically increasing id counter (`TableSchema` in the source).
Tombstone information is derivable: an id is tombstoned exactly when it is
below `next_column_id` and unreachable from the active fields. -/
structure TableSchema where
  fields : List TableField
  next_column_id : Nat

/-- Admit a list of declared fields into the id space starting at counter
`n`: each field's representative id is the counter at its turn, advanced
past its whole subtree. -/
def build_fields : List TableField → Nat → List TableField × Nat
  | [], n => ([], n)
  | f :: fs, n =>
    let n2 := (build_column_ids f.data_type n).2
    let r := build_fields fs n2
    (⟨f.name, f.data_type, n⟩ :: r.1, r.2)

/-- Modelled from the spec: construct a schema from an initial field list,
ids assigned from 0. -/
def TableSchema.new (fs : List TableField) : TableSchema :=
  let r := build_fields fs 0
  ⟨r.1, r.2⟩

/-- Modelled from the spec: `add_columns` fails with `DuplicateName` when a
new field's top-level name collides with an active field's name; otherwise
it admits the new fields against the live counter and appends them. The
mutation is atomic: on failure no schema is produced. -/
def TableSchema.add_columns (s : TableSchema) (fs : List TableField) :
    Except SchemaErr TableSchema :=
  if fs.any (fun f => s.fields.any (fun g => g.name == f.name)) then
    .error .DuplicateName
  else
    let r := build_fields fs s.next_column_id
    .ok ⟨s.fields ++ r.1, r.2⟩

/-- Remove the first active field with the given name. -/
def remove_first : List TableField → String → List TableField
  | [], _ => []
  | f :: fs, name => if f.name == name then fs else f :: remove_first fs name

/-- Modelled from the spec: `drop_column` fails with `UnknownColumn` when no
active field has the given top-level name; otherwise it removes that field,
touching neither `next_column_id` nor any other field. -/
def TableSchema.drop_column (s : TableSchema) (name : String) :
    Except SchemaErr TableSchema :=
  if s.fields.any (fun f => f.name == name) then
    .ok ⟨remove_first s.fields name, s.next_column_id⟩
  else
    .error .UnknownColumn

/-- Modelled from the spec: look up an active top-level field's
representative id by name. -/
def TableSchema.column_id_of (s : TableSchema) (name : String) :
    Except SchemaErr Nat :=
  match s.fields.find? (fun f => f.name == name) with
  | some f => .ok f.column_id
  | none => .error .UnknownColumn

/-- Modelled from the spec: an id is deleted iff it was assigned at some
point (is below `next_column_id`) and is not reachable from any active
field's node ids. -/
def TableSchema.is_column_deleted (s : TableSchema) (id : Nat) : Bool :=
  decide (id < s.next_column_id) &&
    !(s.fields.any (fun f => decide (id ∈ f.column_ids)))

/-- Concatenation of `node_ids` over the active fields in declared order. -/
def TableSchema.to_column_ids (s : TableSchema) : List Nat :=
  s.fields.flatMap TableField.column_ids

/-- Concatenation of `leaf_ids` over the active fields in declared order. -/
def TableSchema.to_leaf_column_ids (s : TableSchema) : List Nat :=
  s.fields.flatMap TableField.leaf_column_ids

/-- `node_ids` of every active field, in declared order. -/
def TableSchema.field_column_ids (s : TableSchema) : List (List Nat) :=
  s.fields.map TableField.column_ids

mutual

/-- Modelled from the spec: enumerate the leaf fields under one field,
recomputing ids from the field's representative id.  A tuple member is
reported under its bare member name; an array element under the parent
name with a `:0` suffix; every other kind is itself a leaf. -/
def collect_leaf (name : String) (t : TableDataType) (n : Nat) :
    List (Nat × TableField) × Nat :=
  match t with
  | .Tuple ns ts => collect_leaf_members ns ts n
  | .Array e => collect_leaf (name ++ ":0") e n
  | t => ([(n, ⟨name, t, n⟩)], n + 1)

/-- Leaf-field enumeration over tuple members, left to right. -/
def collect_leaf_members (ns : List String) (ts : List TableDataType)
    (n : Nat) : List (Nat × TableField) × Nat :=
  match ns, ts with
  | nm :: ns2, t :: ts2 =>
    let r := collect_leaf nm t n
    let r2 := collect_leaf_members ns2 ts2 r.2
    (r.1 ++ r2.1, r2.2)
  | _, _ => ([], n)

end

/-- Modelled from the spec: the leaf-field enumeration of a schema, as the
parallel pair (leaf column ids, leaf fields). -/
def TableSchema.leaf_fields (s : TableSchema) : List Nat × List TableField :=
  let pairs := s.fields.flatMap (fun f => (collect_leaf f.name f.data_type f.column_id).1)
  (pairs.map Prod.fst, pairs.map Prod.snd)

/-- Synthesized member fields of a tuple field, used when a projection path
descends into it: member `m` of field `f` is named `f.name ++ ":" ++ m`,
keeps its declared member type, and its id is the parent's id advanced past
the leaves of the preceding members. -/
def inner_fields (base : String) : List String → List TableDataType → Nat → List TableField
  | nm :: ns, t :: ts, n =>
    ⟨base ++ ":" ++ nm, t, n⟩ :: inner_fields base ns ts (n + leaf_count t)
  | _, _, _ => []

/-- Modelled from the spec: resolve one projection path: the head index
picks a field; a singleton path returns that field as is; a longer path
requires a tuple and descends into its synthesized member fields. -/
def traverse_paths (fields : List TableField) : List Nat → Except SchemaErr TableField
  | [] => .error .InvalidPath
  | i :: rest =>
    match fields[i]? with
    | none => .error .InvalidPath
    | some f =>
      match rest with
      | [] => .ok f
      | _ =>
        match f.data_type with
        | .Tuple ns ts => traverse_paths (inner_fields f.name ns ts f.column_id) rest
        | _ => .error .InvalidPath

/-- Resolve a list of projection paths in order, failing if any path is
invalid. -/
def traverse_paths_list (fields : List TableField) :
    List (List Nat) → Except SchemaErr (List TableField)
  | [] => .ok []
  | p :: ps =>
    match traverse_paths fields p, traverse_paths_list fields ps with
    | .ok f, .ok fs => .ok (f :: fs)
    | .error e, _ => .error e
    | .ok _, .error e => .error e

/-- Modelled from the spec: path-index projection.  The result holds one
field per requested path, in the caller's requested order, with original
ids, and inherits the source schema's `next_column_id`. -/
def TableSchema.inner_project (s : TableSchema) (paths : List (List Nat)) :
    Except SchemaErr TableSchema :=
  match traverse_paths_list s.fields paths with
  | .ok fs => .ok ⟨fs, s.next_column_id⟩
  | .error e => .error e

/-- Resolve caller-supplied pruned fields against the flat node-id list of
the source schema: entry `(i, f)` keeps `f`'s name and pruned type but
takes the id found at flat node position `i`. -/
def project_fields_list (ids : List Nat) :
    List (Nat × TableField) → Except SchemaErr (List TableField)
  | [] => .ok []
  | (i, f) :: rest =>
    match ids[i]? with
    | none => .error .InvalidPath
    | some cid =>
      match project_fields_list ids rest with
      | .ok fs => .ok (⟨f.name, f.data_type, cid⟩ :: fs)
      | .error e => .error e

/-- Modelled from the spec: explicit-field projection.  Each supplied
pruned field is re-anchored at the original schema's node id at its flat
structural position; its `node_ids`/`leaf_ids` are then regenerated by the
pre-order traversal from that id, never assigning fresh ids.  The result
inherits the source schema's `next_column_id`. -/
def TableSchema.project_by_fields (s : TableSchema)
    (pfs : List (Nat × TableField)) : Except SchemaErr TableSchema :=
  match project_fields_list s.to_column_ids pfs with
  | .ok fs => .ok ⟨fs, s.next_column_id⟩
  | .error e => .error e

mutual

/-- Well-formedness of a type, as the source constructs them: tuple member
names and types are positionally aligned and a tuple has at least one
member. -/
def wf_type : TableDataType → Bool
  | .Tuple ns ts => (ns.length == ts.length) && !ts.isEmpty && wf_type_list ts
  | .Array e => wf_type e
  | _ => true

/-- Well-formedness of a list of tuple members. -/
def wf_type_list : List TableDataType → Bool
  | [] => true
  | t :: ts => wf_type t && wf_type_list ts

end

mutual

theorem build_column_ids_snd (t : TableDataType) (n : Nat) :
    (build_column_ids t n).2 = n + leaf_count t := by
  cases t with
  | Tuple ns ts =>
    simp [build_column_ids, leaf_count, build_column_ids_list_snd ts n]
  | Array e =>
    simp [build_column_ids, leaf_count, build_column_ids_snd e n]
  | Boolean => simp [build_column_ids, leaf_count]
  | String => simp [build_column_ids, leaf_count]
  | Number k => simp [build_column_ids, leaf_count]
  | Nullable e => simp [build_column_ids, leaf_count]
  | Map e => simp [build_column_ids, leaf_count]

theorem build_column_ids_list_snd (ts : List TableDataType) (n : Nat) :
    (build_column_ids_list ts n).2 = n + leaf_count_list ts := by
  cases ts with
  | nil => simp [build_column_ids_list, leaf_count_list]
  | cons t ts2 =>
    simp [build_column_ids_list, leaf_count_list,
      build_column_ids_snd t n, build_column_ids_list_snd ts2 (n + leaf_count t)]
    omega

end

mutual

theorem build_leaf_ids_eq (t : TableDataType) (n : Nat) :
    build_leaf_ids t n = (List.range' n (leaf_count t), n + leaf_count t) := by
  cases t with
  | Tuple ns ts =>
    simp [build_leaf_ids, leaf_count, build_leaf_ids_list_eq ts n]
  | Array e =>
    simp [build_leaf_ids, leaf_count, build_leaf_ids_eq e n]
  | Boolean => simp [build_leaf_ids, leaf_count]
  | String => simp [build_leaf_ids, leaf_count]
  | Number k => simp [build_leaf_ids, leaf_count]
  | Nullable e => simp [build_leaf_ids, leaf_count]
  | Map e => simp [build_leaf_ids, leaf_count]

theorem build_leaf_ids_list_eq (ts : List TableDataType) (n : Nat) :
    build_leaf_ids_list ts n =
      (List.range' n (leaf_count_list ts), n + leaf_count_list ts) := by
  cases ts with
  | nil => simp [build_leaf_ids_list, leaf_count_list]
  | cons t ts2 =>
    have h1 := build_leaf_ids_eq t n
    have h2 := build_leaf_ids_list_eq ts2 (n + leaf_count t)
    have h3 := List.range'_append n (leaf_count t) (leaf_count_list ts2) 1
    simp only [one_mul] at h3
    simp [build_leaf_ids_list, leaf_count_list, h1, h2, h3,
      Nat.add_comm (leaf_count t) (leaf_count_list ts2), Nat.add_assoc]

end

theorem build_column_ids_head (t : TableDataType) (n : Nat) :
    ((build_column_ids t n).1).head? = some n := by
  cases t <;> simp [build_column_ids]

mutual

theorem build_column_ids_mem_lower (t : TableDataType) (n : Nat) :
    ∀ id ∈ (build_column_ids t n).1, n ≤ id := by
  cases t with
  | Tuple ns ts =>
    intro id hid
    simp only [build_column_ids, List.mem_cons] at hid
    rcases hid with h | h
    · omega
    · exact build_column_ids_list_mem_lower ts n id h
  | Array e =>
    intro id hid
    simp only [build_column_ids, List.mem_cons] at hid
    rcases hid with h | h
    · omega
    · exact build_column_ids_mem_lower e n id h
  | Boolean => intro id hid; simp [build_column_ids] at hid; omega
  | String => intro id hid; simp [build_column_ids] at hid; omega
  | Number k => intro id hid; simp [build_column_ids] at hid; omega
  | Nullable e => intro id hid; simp [build_column_ids] at hid; omega
  | Map e => intro id hid; simp [build_column_ids] at hid; omega

theorem build_column_ids_list_mem_lower (ts : List TableDataType) (n : Nat) :
    ∀ id ∈ (build_column_ids_list ts n).1, n ≤ id := by
  cases ts with
  | nil => intro id hid; simp [build_column_ids_list] at hid
  | cons t ts2 =>
    intro id hid
    simp only [build_column_ids_list, List.mem_append] at hid
    rcases hid with h | h
    · exact build_column_ids_mem_lower t n id h
    · have h2 := build_column_ids_list_mem_lower ts2 (build_column_ids t n).2 id h
      have h3 := build_column_ids_snd t n
      omega

end

mutual

theorem wf_type_leaf_pos (t : TableDataType) (h : wf_type t = true) :
    1 ≤ leaf_count t := by
  cases t with
  | Tuple ns ts =>
    simp only [wf_type, Bool.and_eq_true] at h
    cases ts with
    | nil => simp [List.isEmpty] at h
    | cons t2 ts2 =>
      have h2 : wf_type t2 = true := by
        have := h.2
        simp [wf_type_list, Bool.and_eq_true] at this
        exact this.1
      have := wf_type_leaf_pos t2 h2
      simp only [leaf_count, leaf_count_list]
      omega
  | Array e =>
    have h2 : wf_type e = true := h
    have := wf_type_leaf_pos e h2
    simpa [leaf_count] using this
  | Boolean => simp [leaf_count]
  | String => simp [leaf_count]
  | Number k => simp [leaf_count]
  | Nullable e => simp [leaf_count]
  | Map e => simp [leaf_count]

end

mutual

theorem build_column_ids_mem_upper (t : TableDataType) (n : Nat)
    (h : wf_type t = true) :
    ∀ id ∈ (build_column_ids t n).1, id < n + leaf_count t := by
  cases t with
  | Tuple ns ts =>
    intro id hid
    simp only [build_column_ids, List.mem_cons] at hid
    have hpos := wf_type_leaf_pos (.Tuple ns ts) h
    rcases hid with hh | hh
    · omega
    · have hwl : wf_type_list ts = true := by
        simp only [wf_type, Bool.and_eq_true] at h
        exact h.2
      have := build_column_ids_list_mem_upper ts n hwl id hh
      simpa [leaf_count] using this
  | Array e =>
    intro id hid
    simp only [build_column_ids, List.mem_cons] at hid
    have hpos := wf_type_leaf_pos (.Array e) h
    rcases hid with hh | hh
    · omega
    · have := build_column_ids_mem_upper e n h id hh
      simpa [leaf_count] using this
  | Boolean => intro id hid; simp [build_column_ids] at hid; simp [leaf_count]; omega
  | String => intro id hid; simp [build_column_ids] at hid; simp [leaf_count]; omega
  | Number k => intro id hid; simp [build_column_ids] at hid; simp [leaf_count]; omega
  | Nullable e => intro id hid; simp [build_column_ids] at hid; simp [leaf_count]; omega
  | Map e => intro id hid; simp [build_column_ids] at hid; simp [leaf_count]; omega

theorem build_column_ids_list_mem_upper (ts : List TableDataType) (n : Nat)
    (h : wf_type_list ts = true) :
    ∀ id ∈ (build_column_ids_list ts n).1, id < n + leaf_count_list ts := by
  cases ts with
  | nil => intro id hid; simp [build_column_ids_list] at hid
  | cons t ts2 =>
    intro id hid
    simp only [wf_type_list, Bool.and_eq_true] at h
    simp only [build_column_ids_list, List.mem_append] at hid
    rcases hid with hh | hh
    · have := build_column_ids_mem_upper t n h.1 id hh
      simp only [leaf_count_list]
      omega
    · have h3 := build_column_ids_snd t n
      have := build_column_ids_list_mem_upper ts2 (build_column_ids t n).2 h.2 id hh
      simp only [leaf_count_list]
      omega

end

mutual

theorem build_leaf_sub (t : TableDataType) (n : Nat) :
    ∀ id ∈ (build_leaf_ids t n).1, id ∈ (build_column_ids t n).1 := by
  cases t with
  | Tuple ns ts =>
    intro id hid
    simp only [build_leaf_ids] at hid
    simp only [build_column_ids, List.mem_cons]
    exact Or.inr (build_leaf_sub_list ts n id hid)
  | Array e =>
    intro id hid
    simp only [build_leaf_ids] at hid
    simp only [build_column_ids, List.mem_cons]
    exact Or.inr (build_leaf_sub e n id hid)
  | Boolean => intro id hid; simpa [build_column_ids, build_leaf_ids] using hid
  | String => intro id hid; simpa [build_column_ids, build_leaf_ids] using hid
  | Number k => intro id hid; simpa [build_column_ids, build_leaf_ids] using hid
  | Nullable e => intro id hid; simpa [build_column_ids, build_leaf_ids] using hid
  | Map e => intro id hid; simpa [build_column_ids, build_leaf_ids] using hid

theorem build_leaf_sub_list (ts : List TableDataType) (n : Nat) :
    ∀ id ∈ (build_leaf_ids_list ts n).1, id ∈ (build_column_ids_list ts n).1 := by
  cases ts with
  | nil => intro id hid; simp [build_leaf_ids_list] at hid
  | cons t ts2 =>
    intro id hid
    simp only [build_leaf_ids_list, List.mem_append] at hid
    simp only [build_column_ids_list, List.mem_append]
    have hsnd : (build_leaf_ids t n).2 = (build_column_ids t n).2 := by
      rw [build_leaf_ids_eq, build_column_ids_snd]
    rcases hid with hh | hh
    · exact Or.inl (build_leaf_sub t n id hh)
    · rw [hsnd] at hh
      exact Or.inr (build_leaf_sub_list ts2 (build_column_ids t n).2 id hh)

end

/-- Every id in the span of a field admitted at `n` appears among its node
ids (every id in the half-open span is some leaf's id). -/
theorem span_mem_column_ids (t : TableDataType) (n id : Nat)
    (h1 : n ≤ id) (h2 : id < n + leaf_count t) :
    id ∈ (build_column_ids t n).1 := by
  apply build_leaf_sub
  rw [build_leaf_ids_eq]
  simp only [List.mem_range'_1]
  omega

/-- Interval discipline of a field list: the half-open id spans
`[column_id, column_id + leaf_count)` of successive fields are ordered,
disjoint, and contained in `[lo, hi)`. Every schema produced by the
construction/mutation protocol satisfies it. -/
def wf_fields : List TableField → Nat → Nat → Bool
  | [], lo, hi => decide (lo ≤ hi)
  | f :: fs, lo, hi =>
    decide (lo ≤ f.column_id) &&
      wf_fields fs (f.column_id + leaf_count f.data_type) hi

/-- A schema is well formed when its fields obey the interval discipline
below `next_column_id`. -/
def TableSchema.wf (s : TableSchema) : Bool :=
  wf_fields s.fields 0 s.next_column_id

theorem wf_fields_le (fs : List TableField) (lo hi : Nat)
    (h : wf_fields fs lo hi = true) : lo ≤ hi := by
  induction fs generalizing lo with
  | nil => simpa [wf_fields] using h
  | cons f fs2 ih =>
    simp only [wf_fields, Bool.and_eq_true, decide_eq_true_eq] at h
    have := ih _ h.2
    omega

theorem wf_fields_weaken (fs : List TableField) (lo lo2 hi : Nat)
    (hle : lo2 ≤ lo) (h : wf_fields fs lo hi = true) :
    wf_fields fs lo2 hi = true := by
  cases fs with
  | nil =>
    simp only [wf_fields, decide_eq_true_eq] at h ⊢
    omega
  | cons f fs2 =>
    simp only [wf_fields, Bool.and_eq_true, decide_eq_true_eq] at h ⊢
    exact ⟨by omega, h.2⟩

theorem build_fields_wf (gs : List TableField) (n : Nat) :
    wf_fields (build_fields gs n).1 n (build_fields gs n).2 = true := by
  induction gs generalizing n with
  | nil => simp [build_fields, wf_fields]
  | cons g gs2 ih =>
    simp only [build_fields, wf_fields, Bool.and_eq_true, decide_eq_true_eq]
    refine ⟨Nat.le_refl n, ?_⟩
    rw [build_column_ids_snd g.data_type n]
    exact ih (n + leaf_count g.data_type)

theorem build_fields_snd_le (gs : List TableField) (n : Nat) :
    n ≤ (build_fields gs n).2 := by
  have h := build_fields_wf gs n
  exact wf_fields_le _ _ _ h

theorem wf_fields_append (A B : List TableField) (lo hi hi2 : Nat)
    (hA : wf_fields A lo hi = true) (hB : wf_fields B hi hi2 = true) :
    wf_fields (A ++ B) lo hi2 = true := by
  induction A generalizing lo with
  | nil =>
    simp only [wf_fields, decide_eq_true_eq] at hA
    exact wf_fields_weaken B hi lo hi2 hA hB
  | cons f A2 ih =>
    simp only [wf_fields, Bool.and_eq_true, decide_eq_true_eq] at hA
    simp only [List.cons_append, wf_fields, Bool.and_eq_true, decide_eq_true_eq]
    exact ⟨hA.1, ih _ hA.2⟩

theorem wf_fields_remove_first (fs : List TableField) (name : String)
    (lo hi : Nat) (h : wf_fields fs lo hi = true) :
    wf_fields (remove_first fs name) lo hi = true := by
  induction fs generalizing lo with
  | nil => simpa [remove_first] using h
  | cons f fs2 ih =>
    simp only [wf_fields, Bool.and_eq_true, decide_eq_true_eq] at h
    by_cases hn : f.name == name
    · simp only [remove_first, hn, if_true]
      exact wf_fields_weaken fs2 _ lo hi (by omega) h.2
    · simp only [remove_first, hn, if_false, wf_fields, Bool.and_eq_true,
        decide_eq_true_eq]
      exact ⟨h.1, ih _ h.2⟩

theorem new_wf (fs : List TableField) : (TableSchema.new fs).wf = true := by
  simpa [TableSchema.new, TableSchema.wf] using build_fields_wf fs 0

theorem add_columns_wf (s : TableSchema) (gs : List TableField)
    (s2 : TableSchema) (hwf : s.wf = true)
    (h : s.add_columns gs = .ok s2) : s2.wf = true := by
  simp only [TableSchema.add_columns] at h
  by_cases hc : gs.any (fun f => s.fields.any (fun g => g.name == f.name))
  · simp [hc] at h
  · simp only [hc, Bool.false_eq_true, if_false, Except.ok.injEq] at h
    subst h
    exact wf_fields_append s.fields _ 0 s.next_column_id _ hwf
      (build_fields_wf gs s.next_column_id)

theorem drop_column_wf (s : TableSchema) (name : String)
    (s2 : TableSchema) (hwf : s.wf = true)
    (h : s.drop_column name = .ok s2) : s2.wf = true := by
  simp only [TableSchema.drop_column] at h
  by_cases hc : s.fields.any (fun f => f.name == name)
  · simp only [hc, if_true, Except.ok.injEq] at h
    subst h
    exact wf_fields_remove_first s.fields name 0 s.next_column_id hwf
  · simp [hc] at h

theorem add_columns_next_le (s : TableSchema) (gs : List TableField)
    (s2 : TableSchema) (h : s.add_columns gs = .ok s2) :
    s.next_column_id ≤ s2.next_column_id := by
  simp only [TableSchema.add_columns] at h
  by_cases hc : gs.any (fun f => s.fields.any (fun g => g.name == f.name))
  · simp [hc] at h
  · simp only [hc, Bool.false_eq_true, if_false, Except.ok.injEq] at h
    subst h
    exact build_fields_snd_le gs s.next_column_id

theorem drop_column_next_eq (s : TableSchema) (name : String)
    (s2 : TableSchema) (h : s.drop_column name = .ok s2) :
    s2.next_column_id = s.next_column_id := by
  simp only [TableSchema.drop_column] at h
  by_cases hc : s.fields.any (fun f => f.name == name)
  · simp only [hc, if_true, Except.ok.injEq] at h
    subst h
    rfl
  · simp [hc] at h

/-- A schema mutation: add a batch of columns or drop one by name. -/
inductive SchemaOp where
  | add : List TableField → SchemaOp
  | drop : String → SchemaOp

/-- Apply a mutation; a failed mutation leaves the schema unchanged
(mutations are atomic). -/
def apply_op (s : TableSchema) : SchemaOp → TableSchema
  | .add fs =>
    match s.add_columns fs with
    | .ok s2 => s2
    | .error _ => s
  | .drop name =>
    match s.drop_column name with
    | .ok s2 => s2
    | .error _ => s

/-- Apply a sequence of mutations in order. -/
def apply_ops (s : TableSchema) (ops : List SchemaOp) : TableSchema :=
  ops.foldl apply_op s

theorem apply_op_next_le (s : TableSchema) (op : SchemaOp) :
    s.next_column_id ≤ (apply_op s op).next_column_id := by
  cases op with
  | add fs =>
    simp only [apply_op]
    cases h : s.add_columns fs with
    | ok s2 => exact add_columns_next_le s fs s2 h
    | error e => exact Nat.le_refl _
  | drop name =>
    simp only [apply_op]
    cases h : s.drop_column name with
    | ok s2 => exact Nat.le_of_eq (drop_column_next_eq s name s2 h).symm
    | error e => exact Nat.le_refl _

theorem apply_ops_next_le (s : TableSchema) (ops : List SchemaOp) :
    s.next_column_id ≤ (apply_ops s ops).next_column_id := by
  induction ops generalizing s with
  | nil => exact Nat.le_refl _
  | cons op ops2 ih =>
    have h1 := apply_op_next_le s op
    have h2 := ih (apply_op s op)
    simp only [apply_ops, List.foldl_cons] at h2 ⊢
    omega

theorem apply_op_wf (s : TableSchema) (op : SchemaOp) (hwf : s.wf = true) :
    (apply_op s op).wf = true := by
  cases op with
  | add fs =>
    simp only [apply_op]
    cases h : s.add_columns fs with
    | ok s2 => exact add_columns_wf s fs s2 hwf h
    | error e => exact hwf
  | drop name =>
    simp only [apply_op]
    cases h : s.drop_column name with
    | ok s2 => exact drop_column_wf s name s2 hwf h
    | error e => exact hwf

theorem apply_ops_wf (s : TableSchema) (ops : List SchemaOp)
    (hwf : s.wf = true) : (apply_ops s ops).wf = true := by
  induction ops generalizing s with
  | nil => exact hwf
  | cons op ops2 ih =>
    simp only [apply_ops, List.foldl_cons]
    exact ih (apply_op s op) (apply_op_wf s op hwf)

theorem wf_fields_leaf_pairwise (fs : List TableField) (lo hi : Nat)
    (h : wf_fields fs lo hi = true) :
    (fs.flatMap TableField.leaf_column_ids).Pairwise (· < ·) ∧
      ∀ id ∈ fs.flatMap TableField.leaf_column_ids, lo ≤ id ∧ id < hi := by
  induction fs generalizing lo with
  | nil => simp
  | cons f fs2 ih =>
    simp only [wf_fields, Bool.and_eq_true, decide_eq_true_eq] at h
    obtain ⟨h1, h2⟩ := h
    obtain ⟨ihp, ihb⟩ := ih _ h2
    have hhi := wf_fields_le _ _ _ h2
    have hleaf : f.leaf_column_ids =
        List.range' f.column_id (leaf_count f.data_type) := by
      simp [TableField.leaf_column_ids, build_leaf_ids_eq]
    constructor
    · simp only [List.flatMap_cons, List.pairwise_append]
      refine ⟨?_, ihp, ?_⟩
      · rw [hleaf]
        exact List.pairwise_lt_range' _ _
      · intro a ha b hb
        rw [hleaf] at ha
        simp only [List.mem_range'_1] at ha
        have := (ihb b hb).1
        omega
    · intro id hid
      simp only [List.flatMap_cons, List.mem_append] at hid
      rcases hid with hh | hh
      · rw [hleaf] at hh
        simp only [List.mem_range'_1] at hh
        omega
      · have := ihb id hh
        omega

/-- In a well-formed schema no two leaf nodes of the active fields share a
column id: the flat leaf-id list is strictly increasing. -/
theorem wf_leaf_pairwise (s : TableSchema) (hwf : s.wf = true) :
    s.to_leaf_column_ids.Pairwise (· < ·) :=
  (wf_fields_leaf_pairwise s.fields 0 s.next_column_id hwf).1

theorem wf_fields_node_bound (fs : List TableField) (lo hi : Nat)
    (h : wf_fields fs lo hi = true) :
    ∀ f ∈ fs, wf_type f.data_type = true →
      ∀ id ∈ f.column_ids, lo ≤ id ∧ id < hi := by
  induction fs generalizing lo with
  | nil => simp
  | cons g fs2 ih =>
    simp only [wf_fields, Bool.and_eq_true, decide_eq_true_eq] at h
    obtain ⟨h1, h2⟩ := h
    have hhi := wf_fields_le _ _ _ h2
    intro f hf hw id hid
    rcases List.mem_cons.mp hf with hh | hh
    · subst hh
      have hlow := build_column_ids_mem_lower f.data_type f.column_id id hid
      have hup := build_column_ids_mem_upper f.data_type f.column_id hw id hid
      constructor
      · omega
      · simp only [TableField.column_ids] at hid
        omega
    · have := ih _ h2 f hh hw id hid
      omega

theorem wf_fields_field_span (fs : List TableField) (lo hi : Nat)
    (h : wf_fields fs lo hi = true) :
    ∀ g ∈ fs, lo ≤ g.column_id ∧
      g.column_id + leaf_count g.data_type ≤ hi := by
  induction fs generalizing lo with
  | nil => simp
  | cons f fs2 ih =>
    simp only [wf_fields, Bool.and_eq_true, decide_eq_true_eq] at h
    have hhi := wf_fields_le _ _ _ h.2
    intro g hg
    rcases List.mem_cons.mp hg with hh | hh
    · subst hh
      omega
    · have := ih _ h.2 g hh
      omega

theorem inner_fields_bound (base : String) (ns : List String)
    (ts : List TableDataType) (n : Nat) (hw : wf_type_list ts = true) :
    ∀ g ∈ inner_fields base ns ts n,
      wf_type g.data_type = true ∧ n ≤ g.column_id ∧
        g.column_id + leaf_count g.data_type ≤ n + leaf_count_list ts := by
  induction ns generalizing ts n with
  | nil => simp [inner_fields]
  | cons nm ns2 ih =>
    cases ts with
    | nil => simp [inner_fields]
    | cons t ts2 =>
      simp only [wf_type_list, Bool.and_eq_true] at hw
      intro g hg
      simp only [inner_fields, List.mem_cons] at hg
      rcases hg with hh | hh
      · subst hh
        simp only [leaf_count_list]
        exact ⟨hw.1, by omega, by omega⟩
      · obtain ⟨hwg, hb1, hb2⟩ := ih ts2 (n + leaf_count t) hw.2 g hh
        simp only [leaf_count_list]
        exact ⟨hwg, by omega, by omega⟩

theorem traverse_paths_bound (path : List Nat) (fields : List TableField)
    (lo hi : Nat)
    (hb : ∀ g ∈ fields, wf_type g.data_type = true ∧ lo ≤ g.column_id ∧
      g.column_id + leaf_count g.data_type ≤ hi)
    (f : TableField) (h : traverse_paths fields path = .ok f) :
    wf_type f.data_type = true ∧ lo ≤ f.column_id ∧
      f.column_id + leaf_count f.data_type ≤ hi := by
  induction path generalizing fields lo hi with
  | nil => simp [traverse_paths] at h
  | cons i rest ih =>
    cases hg : fields[i]? with
    | none => simp [traverse_paths, hg] at h
    | some g =>
      have hgmem : g ∈ fields := List.getElem?_mem hg
      have hgb := hb g hgmem
      cases rest with
      | nil =>
        simp only [traverse_paths, hg, Except.ok.injEq] at h
        subst h
        exact hgb
      | cons j rest2 =>
        simp only [traverse_paths, hg] at h
        cases hdt : g.data_type with
        | Tuple ns ts =>
          rw [hdt] at h
          have hwl : wf_type_list ts = true := by
            have := hgb.1
            rw [hdt] at this
            simp only [wf_type, Bool.and_eq_true] at this
            exact this.2
          have hbi := inner_fields_bound g.name ns ts g.column_id hwl
          have hlc : leaf_count_list ts = leaf_count g.data_type := by
            rw [hdt]; rfl
          refine ih (inner_fields g.name ns ts g.column_id) g.column_id
            (g.column_id + leaf_count_list ts) ?_ h |>.imp id ?_
          · intro g2 hg2
            exact hbi g2 hg2
          · intro hsp
            constructor
            · omega
            · rw [hlc] at hsp
              omega
        | Array e => rw [hdt] at h; simp at h
        | Boolean => rw [hdt] at h; simp at h
        | String => rw [hdt] at h; simp at h
        | Number k => rw [hdt] at h; simp at h
        | Nullable e => rw [hdt] at h; simp at h
        | Map e => rw [hdt] at h; simp at h

/-- A multi-step path resolved under a top-level field `g` yields a field
whose well-formed subtree spans a sub-interval of `g`'s span. -/
theorem traverse_paths_spans (fields : List TableField) (i : Nat)
    (rest : List Nat) (g f : TableField) (hg : fields[i]? = some g)
    (hwg : wf_type g.data_type = true)
    (h : traverse_paths fields (i :: rest) = .ok f) :
    wf_type f.data_type = true ∧ g.column_id ≤ f.column_id ∧
      f.column_id + leaf_count f.data_type ≤
        g.column_id + leaf_count g.data_type := by
  cases rest with
  | nil =>
    simp only [traverse_paths, hg, Except.ok.injEq] at h
    subst h
    exact ⟨hwg, Nat.le_refl _, Nat.le_refl _⟩
  | cons j rest2 =>
    simp only [traverse_paths, hg] at h
    cases hdt : g.data_type with
    | Tuple ns ts =>
      rw [hdt] at h
      have hwl : wf_type_list ts = true := by
        rw [hdt] at hwg
        simp only [wf_type, Bool.and_eq_true] at hwg
        exact hwg.2
      have := traverse_paths_bound (j :: rest2)
        (inner_fields g.name ns ts g.column_id) g.column_id
        (g.column_id + leaf_count_list ts)
        (inner_fields_bound g.name ns ts g.column_id hwl) f h
      simpa [leaf_count] using this
    | Array e => rw [hdt] at h; simp at h
    | Boolean => rw [hdt] at h; simp at h
    | String => rw [hdt] at h; simp at h
    | Number k => rw [hdt] at h; simp at h
    | Nullable e => rw [hdt] at h; simp at h
    | Map e => rw [hdt] at h; simp at h

theorem traverse_paths_list_ok (fields : List TableField)
    (ps : List (List Nat)) (fs : List TableField)
    (h : traverse_paths_list fields ps = .ok fs) :
    fs.length = ps.length ∧
      ∀ k (hk : k < ps.length) (hk2 : k < fs.length),
        traverse_paths fields (ps.get ⟨k, hk⟩) = .ok (fs.get ⟨k, hk2⟩) := by
  induction ps generalizing fs with
  | nil =>
    simp only [traverse_paths_list, Except.ok.injEq] at h
    subst h
    simp
  | cons p ps2 ih =>
    simp only [traverse_paths_list] at h
    cases h1 : traverse_paths fields p with
    | error e => rw [h1] at h; simp at h
    | ok f =>
      rw [h1] at h
      cases h2 : traverse_paths_list fields ps2 with
      | error e => rw [h2] at h; simp at h
      | ok fs2 =>
        rw [h2] at h
        simp only [Except.ok.injEq] at h
        subst h
        obtain ⟨hlen, hall⟩ := ih fs2 h2
        refine ⟨by simp [hlen], ?_⟩
        intro k hk hk2
        cases k with
        | zero => simpa using h1
        | succ k2 =>
          simp only [List.get_cons_succ]
          exact hall k2 (by simpa using hk) (by simpa using hk2)

theorem inner_fields_getElem (base : String) (ns : List String)
    (ts : List TableDataType) (n j : Nat) :
    (inner_fields base ns ts n)[j]? =
      match ns[j]?, ts[j]? with
      | some nj, some tj =>
        some ⟨base ++ ":" ++ nj, tj, n + leaf_count_list (ts.take j)⟩
      | _, _ => none := by
  induction ns generalizing ts n j with
  | nil => simp [inner_fields]
  | cons nm ns2 ih =>
    cases ts with
    | nil => simp [inner_fields]
    | cons t ts2 =>
      cases j with
      | zero => simp [inner_fields, leaf_count_list]
      | succ j2 =>
        simp only [inner_fields, List.getElem?_cons_succ, List.take_succ_cons,
          leaf_count_list]
        rw [ih ts2 (n + leaf_count t) j2]
        cases ns2[j2]? <;> cases ts2[j2]? <;> simp [Nat.add_assoc]

/-- The colon-joined qualified name along a descent path, built purely from
the names encountered, starting from the top-level field's own name. -/
def descend_name (base : String) (t : TableDataType) : List Nat → Option String
  | [] => some base
  | j :: rest =>
    match t with
    | .Tuple ns ts =>
      match ns[j]?, ts[j]? with
      | some nj, some tj => descend_name (base ++ ":" ++ nj) tj rest
      | _, _ => none
    | _ => none

/-- The qualified name a projection path denotes: the head index picks a
top-level field whose own name starts the chain. -/
def path_name (fields : List TableField) : List Nat → Option String
  | [] => none
  | i :: rest =>
    match fields[i]? with
    | some f => descend_name f.name f.data_type rest
    | none => none

theorem traverse_descend (rest : List Nat) (fields : List TableField)
    (i : Nat) (g f : TableField) (hg : fields[i]? = some g)
    (h : traverse_paths fields (i :: rest) = .ok f) :
    descend_name g.name g.data_type rest = some f.name := by
  induction rest generalizing fields i g with
  | nil =>
    simp only [traverse_paths, hg, Except.ok.injEq] at h
    subst h
    rfl
  | cons j rest2 ih =>
    simp only [traverse_paths, hg] at h
    cases hdt : g.data_type with
    | Tuple ns ts =>
      rw [hdt] at h
      cases hj : (inner_fields g.name ns ts g.column_id)[j]? with
      | none =>
        exact absurd h (by
          cases rest2 <;>
            simp [traverse_paths, hj])
      | some g2 =>
        have := ih (inner_fields g.name ns ts g.column_id) j g2 hj h
        rw [inner_fields_getElem] at hj
        simp only [descend_name]
        cases hn : ns[j]? with
        | none => rw [hn] at hj; simp at hj
        | some nj =>
          cases ht : ts[j]? with
          | none => rw [hn, ht] at hj; simp at hj
          | some tj =>
            rw [hn, ht] at hj
            simp only [Option.some.injEq] at hj
            have hname : g2.name = g.name ++ ":" ++ nj := by rw [← hj]
            have hty : g2.data_type = tj := by rw [← hj]
            show descend_name (g.name ++ ":" ++ nj) tj rest2 = some f.name
            rw [← hname, ← hty]
            exact this
    | Array e => rw [hdt] at h; simp at h
    | Boolean => rw [hdt] at h; simp at h
    | String => rw [hdt] at h; simp at h
    | Number k => rw [hdt] at h; simp at h
    | Nullable e => rw [hdt] at h; simp at h
    | Map e => rw [hdt] at h; simp at h

theorem traverse_path_name (fields : List TableField) (path : List Nat)
    (f : TableField) (h : traverse_paths fields path = .ok f) :
    path_name fields path = some f.name := by
  cases path with
  | nil => simp [traverse_paths] at h
  | cons i rest =>
    cases hg : fields[i]? with
    | none => simp [traverse_paths, hg] at h
    | some g =>
      simp only [path_name, hg]
      exact traverse_descend rest fields i g f hg h

theorem remove_first_split (fs : List TableField) (name : String)
    (h : fs.any (fun f => f.name == name) = true) :
    ∃ pre f post, fs = pre ++ f :: post ∧ f.name = name ∧
      (∀ g ∈ pre, g.name ≠ name) ∧ remove_first fs name = pre ++ post := by
  induction fs with
  | nil => simp at h
  | cons f fs2 ih =>
    by_cases hn : f.name == name
    · refine ⟨[], f, fs2, by simp, by simpa using hn, by simp, ?_⟩
      simp [remove_first, hn]
    · have h2 : fs2.any (fun g => g.name == name) = true := by
        simp only [List.any_cons, hn, Bool.false_or] at h
        exact h
      obtain ⟨pre, f2, post, heq, hname, hpre, hrem⟩ := ih h2
      refine ⟨f :: pre, f2, post, by simp [heq], hname, ?_, ?_⟩
      · intro g hg
        rcases List.mem_cons.mp hg with hh | hh
        · subst hh
          simpa using hn
        · exact hpre g hh
      · simp [remove_first, hn, hrem]

instance instDecEqExcept {ε α : Type} [DecidableEq ε] [DecidableEq α] :
    DecidableEq (Except ε α) := fun x y =>
  match x, y with
  | .ok a, .ok b =>
    if h : a = b then .isTrue (congrArg Except.ok h)
    else .isFalse (fun hc => h (Except.ok.inj hc))
  | .error a, .error b =>
    if h : a = b then .isTrue (congrArg Except.error h)
    else .isFalse (fun hc => h (Except.error.inj hc))
  | .ok _, .error _ => .isFalse (fun hc => Except.noConfusion hc)
  | .error _, .ok _ => .isFalse (fun hc => Except.noConfusion hc)

/-- Shorthand for the `UInt64` scalar type. -/
def u64t : TableDataType := .Number .UInt64

/-- The type of member `b1` in scenario 1. -/
def b1_type : TableDataType := .Tuple ["b11", "b12"] [.Boolean, .String]

/-- The type of field `b` in scenario 1. -/
def b_type : TableDataType := .Tuple ["b1", "b2"] [b1_type, .Number .Int64]

/-- Scenario 1: three top-level fields `a`, `b`, `c` with `b` a nested
tuple. -/
def scenario1 : TableSchema :=
  TableSchema.new [⟨"a", u64t, 0⟩, ⟨"b", b_type, 0⟩, ⟨"c", u64t, 0⟩]

/-- The path-index projection exercised on scenario 1 by the test surface:
`a`, `b:b1:b11`, `b:b1:b12`, `b:b2`, `b:b1`, `b`. -/
def scenario1_paths : List (List Nat) :=
  [[0], [1, 0, 0], [1, 0, 1], [1, 1], [1, 0], [1]]

/-- Scenario 2: scenario 1 after dropping `b`. -/
def scenario2 : TableSchema := apply_op scenario1 (.drop "b")

/-- Scenario 3: scenario 2 after re-adding an identically typed `b`. -/
def scenario3 : TableSchema := apply_op scenario2 (.add [⟨"b", b_type, 0⟩])

/-- The inner tuple type of the `s` field in the modify-field pipeline. -/
def s_type : TableDataType := .Tuple ["0", "1"] [u64t, u64t]

/-- The type of the `s` field in the modify-field pipeline. -/
def s2_type : TableDataType := .Tuple ["0", "1"] [s_type, u64t]

/-- The type of the `ary` field in the modify-field pipeline. -/
def ary_type : TableDataType := .Array (.Array u64t)

/-- The modify-field pipeline of the test surface: start from `[a]`, add
`b`, drop `b`, add `c`, add the nested tuple `s`, add the nested array
`ary`. -/
def modify_schema : TableSchema :=
  apply_ops (TableSchema.new [⟨"a", u64t, 0⟩])
    [.add [⟨"b", u64t, 0⟩], .drop "b", .add [⟨"c", u64t, 0⟩],
     .add [⟨"s", s2_type, 0⟩], .add [⟨"ary", ary_type, 0⟩]]

/-- The modify-field pipeline after additionally dropping `s`. -/
def modify_dropped : TableSchema := apply_op modify_schema (.drop "s")

/-- The explicit-field projection exercised on the modify-field pipeline by
the test surface. -/
def modify_project_fields : List (Nat × TableField) :=
  [(0, ⟨"a", u64t, 0⟩), (2, ⟨"s", s2_type, 0⟩), (3, ⟨"0", s_type, 0⟩),
   (4, ⟨"0", u64t, 0⟩), (5, ⟨"1", u64t, 0⟩), (6, ⟨"1", u64t, 0⟩),
   (7, ⟨"ary", ary_type, 0⟩), (8, ⟨"ary:0", .Array u64t, 0⟩),
   (9, ⟨"0", u64t, 0⟩)]

/-- C1: admitting a field's TypeTree assigns ids over its pre-order node
sequence: every node's id is the counter value at its visit (so a
composite's id is exactly the id its leftmost leaf descendant receives,
never a fresh id), the leaf nodes receive the consecutive fresh ids
`n, n+1, ...` in pre-order, and the counter advances by the leaf count
only.  Concretely, scenario 1 yields leaf ids `a=0, b11=1, b12=2, b2=3,
c=4`, `next_id=5`, and `to_leaf_column_ids() = [0,1,2,3,4]`. -/
theorem c1_id_assignment :
    (∀ (t : TableDataType) (n : Nat),
        ((build_column_ids t n).1).head? = some n ∧
        (build_leaf_ids t n).1 = List.range' n (leaf_count t) ∧
        (build_column_ids t n).2 = n + leaf_count t) ∧
    scenario1.to_leaf_column_ids = [0, 1, 2, 3, 4] ∧
    scenario1.next_column_id = 5 ∧
    scenario1.leaf_fields.1 = [0, 1, 2, 3, 4] ∧
    scenario1.leaf_fields.2.map TableField.name = ["a", "b11", "b12", "b2", "c"] := by
  refine ⟨fun t n => ⟨build_column_ids_head t n, ?_, build_column_ids_snd t n⟩,
    by decide, by decide, by decide, by decide⟩
  rw [build_leaf_ids_eq]

/-- C9: the leaf-uniqueness invariant does not carry over to projected
schemas: projecting `a`, `b:b1:b11`, `b:b1:b12`, `b:b2`, `b:b1` and `b`
together out of scenario 1 yields a schema whose leaf-field enumeration
lists the column ids `0,1,2,3,1,2,1,2,3`, in which id `1` (and `2`, `3`)
occurs more than once. -/
theorem c9_projected_leaf_duplicates :
    ((scenario1.inner_project scenario1_paths).toOption.map
        (fun s2 => s2.leaf_fields.1)) = some [0, 1, 2, 3, 1, 2, 1, 2, 3] ∧
    ((scenario1.inner_project scenario1_paths).toOption.map
        (fun s2 => s2.leaf_fields.1.count 1)) = some 3 := by
  constructor <;> decide

/-- The column-builder capability of the physical layer: a builder state
with `append_value`, `append_null` and `finish`, exactly the operations of
the `ColumnBuilder` trait. -/
structure ColumnBuilder (N C St : Type) where
  append_value : St → N → St
  append_null : St → St
  finish : St → St × C

/-- The trait's provided `append_option` method: dispatch on the optional
value. -/
def ColumnBuilder.append_option {N C St : Type} (b : ColumnBuilder N C St)
    (st : St) (opt_val : Option N) : St :=
  match opt_val with
  | some v => b.append_value st v
  | none => b.append_null st

/-- C10: for every column-builder implementation, `append_option` is
exactly a dispatch: on `some v` it performs precisely `append_value v` and
on `none` precisely `append_null`, with no other effect. -/
theorem c10_append_option_dispatch :
    ∀ (N C St : Type) (b : ColumnBuilder N C St) (st : St) (v : N),
      b.append_option st (some v) = b.append_value st v ∧
      b.append_option st none = b.append_null st :=
  fun _ _ _ _ _ _ => ⟨rfl, rfl⟩

theorem is_column_deleted_iff (s : TableSchema) (id : Nat) :
    s.is_column_deleted id = true ↔
      (id < s.next_column_id ∧ ∀ f ∈ s.fields, id ∉ f.column_ids) := by
  simp [TableSchema.is_column_deleted, List.any_eq_true]

/-- C4: dropping an active top-level field removes only that field from the
active field list and changes nothing else observable: `next_id` is
untouched and every other active field (hence its ids) is carried over
verbatim.  Concretely, dropping `b` from scenario 1 leaves
`to_leaf_column_ids() = [0,4]` with `c`'s id still `4` and `next_id`
still `5`. -/
theorem c4_drop_column_frame :
    (∀ (s : TableSchema) (name : String),
        s.fields.any (fun f => f.name == name) = true →
        ∃ s1, s.drop_column name = .ok s1 ∧
          s1.next_column_id = s.next_column_id ∧
          ∃ pre f post, s.fields = pre ++ f :: post ∧ f.name = name ∧
            (∀ g ∈ pre, g.name ≠ name) ∧ s1.fields = pre ++ post) ∧
    scenario2.to_leaf_column_ids = [0, 4] ∧
    scenario2.column_id_of "c" = .ok 4 ∧
    scenario2.next_column_id = 5 := by
  refine ⟨?_, by decide, by decide, by decide⟩
  intro s name hact
  refine ⟨⟨remove_first s.fields name, s.next_column_id⟩, ?_, rfl, ?_⟩
  · simp [TableSchema.drop_column, hact]
  · exact remove_first_split s.fields name hact

/-- C4 witness: the general statement applied to scenario 1 and field
`b`. -/
theorem c4_witness :
    scenario1.fields.any (fun f => f.name == "b") = true ∧
    ∃ s1, scenario1.drop_column "b" = .ok s1 ∧
      s1.next_column_id = scenario1.next_column_id ∧
      ∃ pre f post, scenario1.fields = pre ++ f :: post ∧ f.name = "b" ∧
        (∀ g ∈ pre, g.name ≠ "b") ∧ s1.fields = pre ++ post :=
  ⟨by decide, c4_drop_column_frame.1 scenario1 "b" (by decide)⟩

/-- C5: `is_column_deleted(id)` is true iff `id` was assigned at some point
(is below `next_id`) and is not reachable from any active field's node
ids; in particular an id occurring among an active field's node ids is
never deleted, regardless of any historically dropped field.  Concretely,
in the modify-field pipeline the tuple field `s` has node ids
`[3,3,3,4,5]` and after dropping it id `3` is deleted while the ids of the
remaining fields are not. -/
theorem c5_is_column_deleted :
    (∀ (s : TableSchema) (id : Nat),
        s.is_column_deleted id = true ↔
          (id < s.next_column_id ∧ ∀ f ∈ s.fields, id ∉ f.column_ids)) ∧
    (∀ (s : TableSchema) (id : Nat) (f : TableField),
        f ∈ s.fields → id ∈ f.column_ids → s.is_column_deleted id = false) ∧
    modify_schema.field_column_ids = [[0], [2], [3, 3, 3, 4, 5], [6, 6, 6]] ∧
    modify_dropped.is_column_deleted 3 = true ∧
    modify_dropped.is_column_deleted 1 = true ∧
    modify_dropped.is_column_deleted 0 = false ∧
    modify_dropped.is_column_deleted 2 = false ∧
    modify_dropped.is_column_deleted 6 = false := by
  refine ⟨is_column_deleted_iff, ?_, by decide, by decide, by decide,
    by decide, by decide, by decide⟩
  intro s id f hf hid
  rw [Bool.eq_false_iff]
  intro htrue
  exact ((is_column_deleted_iff s id).mp htrue).2 f hf hid

/-- C5 witness: the deleted-iff characterization applied to the
modify-field pipeline at id 3 after dropping `s`. -/
theorem c5_witness :
    3 < modify_dropped.next_column_id ∧
      ∀ f ∈ modify_dropped.fields, 3 ∉ f.column_ids :=
  (c5_is_column_deleted.1 modify_dropped 3).mp (by decide)

/-- C8: `add_columns` fails, with `DuplicateName` and only that error,
exactly when some new field's top-level name collides with an active
field's name; `drop_column` and `column_id_of` fail, with `UnknownColumn`
and only that error, exactly when no active field has the given name.
Failures are atomic by construction: a failing mutation returns only the
error, producing no schema, so the prior schema value is unchanged. -/
theorem c8_error_conditions :
    (∀ (s : TableSchema) (gs : List TableField),
        s.add_columns gs = .error .DuplicateName ↔
          ∃ f ∈ gs, ∃ g ∈ s.fields, g.name = f.name) ∧
    (∀ (s : TableSchema) (gs : List TableField) (e : SchemaErr),
        s.add_columns gs = .error e → e = .DuplicateName) ∧
    (∀ (s : TableSchema) (name : String),
        s.drop_column name = .error .UnknownColumn ↔
          ∀ f ∈ s.fields, f.name ≠ name) ∧
    (∀ (s : TableSchema) (name : String) (e : SchemaErr),
        s.drop_column name = .error e → e = .UnknownColumn) ∧
    (∀ (s : TableSchema) (name : String),
        s.column_id_of name = .error .UnknownColumn ↔
          ∀ f ∈ s.fields, f.name ≠ name) := by
  refine ⟨?_, ?_, ?_, ?_, ?_⟩
  · intro s gs
    by_cases hc : gs.any (fun f => s.fields.any (fun g => g.name == f.name)) = true
    · simp only [TableSchema.add_columns, hc, if_true, true_iff]
      simp only [List.any_eq_true, beq_iff_eq] at hc
      exact hc
    · simp only [TableSchema.add_columns, hc, if_false]
      simp only [List.any_eq_true, beq_iff_eq] at hc
      constructor
      · intro h
        exact absurd h (by simp)
      · intro h
        exact absurd h hc
  · intro s gs e h
    simp only [TableSchema.add_columns] at h
    by_cases hc : gs.any (fun f => s.fields.any (fun g => g.name == f.name)) = true
    · rw [hc] at h
      simp at h
      exact h.symm
    · have hc2 := Bool.eq_false_iff.mpr hc
      rw [hc2] at h
      simp at h
  · intro s name
    by_cases hc : s.fields.any (fun f => f.name == name) = true
    · simp only [TableSchema.drop_column, hc, if_true]
      simp only [List.any_eq_true, beq_iff_eq] at hc
      constructor
      · intro h
        exact absurd h (by simp)
      · intro h
        obtain ⟨f, hf, hfe⟩ := hc
        exact absurd hfe (h f hf)
    · have hc2 := Bool.eq_false_iff.mpr hc
      simp only [List.any_eq_true, beq_iff_eq] at hc
      simp [TableSchema.drop_column, hc2]
      intro f hf hfe
      exact hc ⟨f, hf, hfe⟩
  · intro s name e h
    simp only [TableSchema.drop_column] at h
    by_cases hc : s.fields.any (fun f => f.name == name) = true
    · rw [hc] at h
      simp at h
    · have hc2 := Bool.eq_false_iff.mpr hc
      rw [hc2] at h
      simp at h
      exact h.symm
  · intro s name
    simp only [TableSchema.column_id_of]
    cases hfind : s.fields.find? (fun f => f.name == name) with
    | none =>
      rw [List.find?_eq_none] at hfind
      simp only [true_iff]
      intro f hf hfe
      exact absurd (by simpa using hfe) (by simpa using hfind f hf)
    | some f =>
      have hmem := List.mem_of_find?_eq_some hfind
      have hname := List.find?_some hfind
      simp only [beq_iff_eq] at hname
      constructor
      · intro h
        exact absurd h (by simp)
      · intro h
        exact absurd hname (h f hmem)

/-- C8 witness: the add-collision characterization applied to scenario 1
and a clashing new field named `a`. -/
theorem c8_witness :
    scenario1.add_columns [⟨"a", u64t, 0⟩] = .error .DuplicateName :=
  (c8_error_conditions.1 scenario1 [⟨"a", u64t, 0⟩]).mpr
    ⟨⟨"a", u64t, 0⟩, .head _, ⟨"a", u64t, 0⟩, .head _, rfl⟩

/-- C3: across every sequence of add/drop mutations `next_id` is
non-decreasing; in every well-formed schema state the active leaf ids are
strictly increasing, so no id below `next_id` is held by two different
leaf nodes; and dropping a field then adding fields (of the same name or
not) appends only fields none of whose ids occur among the dropped
field's node ids.  Concretely, re-adding `b` after dropping it from
scenario 1 yields the fresh leaf ids `5,6,7` (never `1,2,3`) and
`next_id = 8`. -/
theorem c3_monotonic_ids :
    (∀ (s : TableSchema) (ops : List SchemaOp),
        s.next_column_id ≤ (apply_ops s ops).next_column_id) ∧
    (∀ (s : TableSchema) (ops : List SchemaOp), s.wf = true →
        ((apply_ops s ops).to_leaf_column_ids).Pairwise (· < ·)) ∧
    (∀ (s s1 s2 : TableSchema) (name : String) (f : TableField)
        (gs : List TableField),
        s.wf = true → f ∈ s.fields → wf_type f.data_type = true →
        s.drop_column name = .ok s1 → s1.add_columns gs = .ok s2 →
        ∃ new, s2.fields = s1.fields ++ new ∧
          ∀ g ∈ new, ∀ id ∈ g.column_ids, id ∉ f.column_ids) ∧
    scenario3.to_leaf_column_ids = [0, 4, 5, 6, 7] ∧
    scenario3.next_column_id = 8 := by
  refine ⟨apply_ops_next_le,
    fun s ops hwf => wf_leaf_pairwise _ (apply_ops_wf s ops hwf),
    ?_, by decide, by decide⟩
  intro s s1 s2 name f gs hwf hf hwt hdrop hadd
  simp only [TableSchema.add_columns] at hadd
  by_cases hc : gs.any (fun g => s1.fields.any (fun g2 => g2.name == g.name)) = true
  · rw [hc] at hadd
    simp at hadd
  · have hc2 := Bool.eq_false_iff.mpr hc
    rw [hc2] at hadd
    simp only [Bool.false_eq_true, if_false, Except.ok.injEq] at hadd
    refine ⟨(build_fields gs s1.next_column_id).1, ?_, ?_⟩
    · rw [← hadd]
    · intro g hg id hid idmem
      have hnext := drop_column_next_eq s name s1 hdrop
      have hbwf := build_fields_wf gs s1.next_column_id
      have hspan := wf_fields_field_span _ _ _ hbwf g hg
      have hlow := build_column_ids_mem_lower g.data_type g.column_id id hid
      have hfspan := wf_fields_field_span s.fields 0 s.next_column_id hwf f hf
      have hup := build_column_ids_mem_upper f.data_type f.column_id hwt id idmem
      omega

/-- C3 witness: dropping `b` from scenario 1 and re-adding it appends only
fields whose ids avoid the dropped `b`'s node ids `[1,1,1,2,3]`. -/
theorem c3_witness :
    scenario1.wf = true ∧
    (⟨"b", b_type, 1⟩ : TableField) ∈ scenario1.fields ∧
    wf_type b_type = true ∧
    scenario1.drop_column "b" = .ok scenario2 ∧
    scenario2.add_columns [⟨"b", b_type, 0⟩] = .ok scenario3 ∧
    ∃ new, scenario3.fields = scenario2.fields ++ new ∧
      ∀ g ∈ new, ∀ id ∈ g.column_ids,
        id ∉ (⟨"b", b_type, 1⟩ : TableField).column_ids :=
  ⟨by decide, .tail _ (.head _), by decide, rfl, rfl,
    c3_monotonic_ids.2.2.1 scenario1 scenario2 scenario3 "b"
      ⟨"b", b_type, 1⟩ [⟨"b", b_type, 0⟩] (by decide) (.tail _ (.head _))
      (by decide) rfl rfl⟩

/-- C7: the field produced by a path-index projection is named by the
colon-joined chain of names encountered while descending the path from the
top-level field's own name, for leaf and intermediate results alike.
Concretely, scenario 1's projection produces the names
`a`, `b:b1:b11`, `b:b1:b12`, `b:b2`, `b:b1`, `b`. -/
theorem c7_projection_name_chain :
    (∀ (fields : List TableField) (path : List Nat) (f : TableField),
        traverse_paths fields path = .ok f →
        path_name fields path = some f.name) ∧
    ((scenario1.inner_project scenario1_paths).toOption.map
        (fun s2 => s2.fields.map TableField.name)) =
      some ["a", "b:b1:b11", "b:b1:b12", "b:b2", "b:b1", "b"] :=
  ⟨traverse_path_name, by decide⟩

/-- C7 witness: the naming rule applied to scenario 1's path `[1,0,1]`,
which denotes the second member of the first member of `b`. -/
theorem c7_witness :
    traverse_paths scenario1.fields [1, 0, 1] =
      .ok ⟨"b:b1:b12", .String, 2⟩ ∧
    path_name scenario1.fields [1, 0, 1] = some "b:b1:b12" :=
  ⟨rfl, c7_projection_name_chain.1 scenario1.fields [1, 0, 1]
    ⟨"b:b1:b12", .String, 2⟩ rfl⟩

/-- C2: path-index projection returns a schema whose fields correspond
exactly to the requested paths in the caller's requested order; every
resulting field's node ids are drawn from the node ids of the source
top-level field its path starts at (no id is freshly assigned — all stay
below the source's `next_id`), and the result's `next_column_id` equals
the source's. -/
theorem c2_inner_project_preserves (s : TableSchema) (paths : List (List Nat))
    (s2 : TableSchema) (hwf : s.wf = true)
    (hts : ∀ f ∈ s.fields, wf_type f.data_type = true)
    (h : s.inner_project paths = .ok s2) :
    s2.next_column_id = s.next_column_id ∧
    s2.fields.length = paths.length ∧
    ∀ k (hk : k < paths.length) (hk2 : k < s2.fields.length),
      traverse_paths s.fields (paths.get ⟨k, hk⟩) =
        .ok (s2.fields.get ⟨k, hk2⟩) ∧
      ∃ i g, (paths.get ⟨k, hk⟩).head? = some i ∧ s.fields[i]? = some g ∧
        ∀ id ∈ (s2.fields.get ⟨k, hk2⟩).column_ids,
          id ∈ g.column_ids ∧ id < s.next_column_id := by
  simp only [TableSchema.inner_project] at h
  cases hl : traverse_paths_list s.fields paths with
  | error e =>
    rw [hl] at h
    simp at h
  | ok fs =>
    rw [hl] at h
    simp only [Except.ok.injEq] at h
    obtain ⟨hlen, hall⟩ := traverse_paths_list_ok s.fields paths fs hl
    subst h
    refine ⟨rfl, hlen, ?_⟩
    intro k hk hk2
    have htr := hall k hk hk2
    refine ⟨htr, ?_⟩
    cases hp : paths.get ⟨k, hk⟩ with
    | nil =>
      rw [hp] at htr
      simp [traverse_paths] at htr
    | cons i rest =>
      rw [hp] at htr
      cases hg : s.fields[i]? with
      | none =>
        rw [traverse_paths] at htr
        rw [hg] at htr
        simp at htr
      | some g =>
        have hgmem : g ∈ s.fields := List.getElem?_mem hg
        have hwg := hts g hgmem
        obtain ⟨hwf2, hlo, hhi⟩ :=
          traverse_paths_spans s.fields i rest g _ hg hwg htr
        have hgspan := wf_fields_field_span s.fields 0 s.next_column_id hwf g hgmem
        refine ⟨i, g, rfl, hg, ?_⟩
        intro id hid
        have hlow := build_column_ids_mem_lower
          (fs.get ⟨k, hk2⟩).data_type (fs.get ⟨k, hk2⟩).column_id id hid
        have hup := build_column_ids_mem_upper
          (fs.get ⟨k, hk2⟩).data_type (fs.get ⟨k, hk2⟩).column_id hwf2 id hid
        constructor
        · exact span_mem_column_ids g.data_type g.column_id id
            (by omega) (by omega)
        · omega

/-- The projected schema of scenario 1, recovered from the projection
itself. -/
def proj1 : TableSchema :=
  (scenario1.inner_project scenario1_paths).toOption.getD ⟨[], 0⟩

/-- C2 witness: the projection statement applied to scenario 1 and its six
test paths. -/
theorem c2_witness :
    scenario1.wf = true ∧
    (∀ f ∈ scenario1.fields, wf_type f.data_type = true) ∧
    scenario1.inner_project scenario1_paths = .ok proj1 ∧
    proj1.next_column_id = scenario1.next_column_id :=
  ⟨by decide, by decide, rfl,
    (c2_inner_project_preserves scenario1 scenario1_paths proj1
      (by decide) (by decide) rfl).1⟩

/-- Capacity hypothesis for explicit-field projection: each supplied pruned
field is well formed and, anchored at the original node id found at its
flat position, its regenerated leaf span stays below the source's
`next_id`.  This is the shallow form of the spec's requirement that the
supplied TypeTree match the original schema's node at that path. -/
def project_capacity (s : TableSchema) (pfs : List (Nat × TableField)) : Bool :=
  pfs.all (fun p => wf_type p.2.data_type &&
    decide ((s.to_column_ids).getD p.1 s.next_column_id +
      leaf_count p.2.data_type ≤ s.next_column_id))

theorem project_fields_list_ok (ids : List Nat)
    (pfs : List (Nat × TableField)) (fs : List TableField)
    (h : project_fields_list ids pfs = .ok fs) :
    fs.length = pfs.length ∧
      ∀ k (hk : k < pfs.length) (hk2 : k < fs.length),
        ∃ cid, ids[(pfs.get ⟨k, hk⟩).1]? = some cid ∧
          fs.get ⟨k, hk2⟩ =
            ⟨(pfs.get ⟨k, hk⟩).2.name, (pfs.get ⟨k, hk⟩).2.data_type, cid⟩ := by
  induction pfs generalizing fs with
  | nil =>
    simp only [project_fields_list, Except.ok.injEq] at h
    subst h
    simp
  | cons p pfs2 ih =>
    obtain ⟨i, f⟩ := p
    simp only [project_fields_list] at h
    cases hcid : ids[i]? with
    | none =>
      rw [hcid] at h
      simp at h
    | some cid =>
      rw [hcid] at h
      cases h2 : project_fields_list ids pfs2 with
      | error e =>
        rw [h2] at h
        simp at h
      | ok fs2 =>
        rw [h2] at h
        simp only [Except.ok.injEq] at h
        subst h
        obtain ⟨hlen, hall⟩ := ih fs2 h2
        refine ⟨by simp [hlen], ?_⟩
        intro k hk hk2
        cases k with
        | zero => exact ⟨cid, hcid, rfl⟩
        | succ k2 =>
          simp only [List.get_cons_succ]
          exact hall k2 (by simpa using hk) (by simpa using hk2)

/-- C6: explicit-field projection re-anchors every supplied pruned field at
the original schema's node id at its flat structural position and
regenerates its `node_ids`/`leaf_ids` by re-running the pre-order
traversal over the supplied pruned TypeTree from that id; when the
supplied trees fit the original nodes (the capacity hypothesis), no
resulting id is freshly assigned — all stay below the source's `next_id`
— and the result inherits the source's `next_column_id`. -/
theorem c6_project_by_fields (s : TableSchema)
    (pfs : List (Nat × TableField)) (s2 : TableSchema)
    (hcap : project_capacity s pfs = true)
    (h : s.project_by_fields pfs = .ok s2) :
    s2.next_column_id = s.next_column_id ∧
    s2.fields.length = pfs.length ∧
    ∀ k (hk : k < pfs.length) (hk2 : k < s2.fields.length),
      ∃ cid, (s.to_column_ids)[(pfs.get ⟨k, hk⟩).1]? = some cid ∧
        s2.fields.get ⟨k, hk2⟩ =
          ⟨(pfs.get ⟨k, hk⟩).2.name, (pfs.get ⟨k, hk⟩).2.data_type, cid⟩ ∧
        (s2.fields.get ⟨k, hk2⟩).column_ids =
          (build_column_ids (pfs.get ⟨k, hk⟩).2.data_type cid).1 ∧
        ∀ id ∈ (s2.fields.get ⟨k, hk2⟩).column_ids,
          id < s.next_column_id := by
  simp only [TableSchema.project_by_fields] at h
  cases hl : project_fields_list s.to_column_ids pfs with
  | error e =>
    rw [hl] at h
    simp at h
  | ok fs =>
    rw [hl] at h
    simp only [Except.ok.injEq] at h
    obtain ⟨hlen, hall⟩ := project_fields_list_ok s.to_column_ids pfs fs hl
    subst h
    refine ⟨rfl, hlen, ?_⟩
    intro k hk hk2
    obtain ⟨cid, hcid, hfield⟩ := hall k hk hk2
    have hp := List.all_eq_true.mp hcap (pfs.get ⟨k, hk⟩) (List.get_mem pfs k hk)
    simp only [Bool.and_eq_true, decide_eq_true_eq] at hp
    obtain ⟨hwt, hcapk⟩ := hp
    have hgd : (s.to_column_ids).getD (pfs.get ⟨k, hk⟩).1 s.next_column_id
        = cid := by
      rw [List.getD_eq_getElem?_getD, hcid]
      rfl
    rw [hgd] at hcapk
    refine ⟨cid, hcid, hfield, ?_, ?_⟩
    · rw [hfield]
      rfl
    · intro id hid
      rw [hfield] at hid
      have hup := build_column_ids_mem_upper
        (pfs.get ⟨k, hk⟩).2.data_type cid hwt id hid
      omega

/-- The explicit-field projection of the modify-field pipeline, recovered
from the projection itself. -/
def proj6 : TableSchema :=
  (modify_schema.project_by_fields modify_project_fields).toOption.getD ⟨[], 0⟩

/-- C6 witness: the explicit-field projection statement applied to the
modify-field pipeline and the nine pruned fields of the test surface; the
regenerated node-id lists are exactly those the test expects. -/
theorem c6_witness :
    project_capacity modify_schema modify_project_fields = true ∧
    modify_schema.project_by_fields modify_project_fields = .ok proj6 ∧
    proj6.next_column_id = modify_schema.next_column_id ∧
    proj6.fields.map TableField.column_ids =
      [[0], [3, 3, 3, 4, 5], [3, 3, 4], [3], [4], [5], [6, 6, 6], [6, 6], [6]] :=
  ⟨by decide, rfl,
    (c6_project_by_fields modify_schema modify_project_fields proj6
      (by decide) rfl).1,
    by decide⟩

end DatabendSchema
